import Mathlib

/-!
Verification of the DNS-MitM host-redirection core
(`stratosphere/ams_mitm/source/dns_mitm/dnsmitm_host_redirection.cpp`).

The hosts-file parser `ParseHostsFile` is a character-by-character DFA with
eleven states; it is embedded here as a pure transition function `step` on a
parser-state record, iterated by `parseLoop`, with the post-loop commit in
`finishParse`.  The C loop stops at the first NUL byte, modelled by truncating
the input with `takeWhile`.  A process abort (`AMS_ABORT_UNLESS`) is modelled
as `none`.  The redirection table (`std::unordered_map` with `operator[]`
assignment and a linear `strcmp` scan on lookup) is embedded as an association
list with unique keys, insert-or-overwrite `mapInsert`, and linear
`GetRedirectedHostByName`.  `SelectHostsFile` is embedded over an explicit
file-existence oracle.
-/

set_option maxRecDepth 100000

/-- The eleven DFA states of `ParseHostsFile` (source lines 37-49). -/
inductive State where
  | IgnoredLine
  | BeginLine
  | Ip1
  | IpDot1
  | Ip2
  | IpDot2
  | Ip3
  | IpDot3
  | Ip4
  | WhiteSpace
  | HostName
deriving DecidableEq, Repr

/-- The mutable locals of `ParseHostsFile`: `current_address`, `work`, and the
contents `current_hostname[0..work)` of the hostname buffer (the bytes at and
beyond index `work` are never read, so only the written region is modelled). -/
structure PState where
  state : State
  addr : Nat
  work : Nat
  host : List Char
deriving DecidableEq, Repr

/-- The redirection map: association list with unique keys. -/
abbrev Table := List (List Char × Nat)

/-- `std::isdigit` in the C locale: the bytes of the characters 0-9. -/
def isdigit (c : Char) : Bool :=
  48 ≤ c.toNat && c.toNat ≤ 57

/-- The value `c - '0'` of a digit character. -/
def digitVal (c : Char) : Nat :=
  c.toNat - 48

/-- `2^32`: `work` and `current_address` are `u32` values. -/
def M32 : Nat := 4294967296

/-- The NUL byte that terminates the C string. -/
def nulChar : Char := Char.ofNat 0

/-- `g_redirection_map[key] = val`: insert-or-overwrite. -/
def mapInsert (tbl : Table) (key : List Char) (val : Nat) : Table :=
  match tbl with
  | [] => [(key, val)]
  | (k, v) :: rest =>
    if k = key then (key, val) :: rest else (k, v) :: mapInsert rest key val

/-- One iteration of the `switch` of `ParseHostsFile` (source lines 56-171) on
a non-NUL character `c`.  `none` models `AMS_ABORT_UNLESS` failing. -/
def step (tbl : Table) (s : PState) (c : Char) : Option (PState × Table) :=
  match s.state with
  | State.IgnoredLine =>
    if c = '\n' then some ({ s with state := State.BeginLine }, tbl)
    else some (s, tbl)
  | State.BeginLine =>
    if isdigit c then some (⟨State.Ip1, 0, digitVal c, s.host⟩, tbl)
    else some ({ s with state := State.IgnoredLine }, tbl)
  | State.Ip1 =>
    if isdigit c then
      some ({ s with work := (s.work * 10 + digitVal c) % M32 }, tbl)
    else if c = '.' then
      some (⟨State.IpDot1, s.addr ||| ((s.work &&& 255) <<< 0), 0, s.host⟩, tbl)
    else some ({ s with state := State.IgnoredLine }, tbl)
  | State.IpDot1 =>
    if isdigit c then some ({ s with work := digitVal c, state := State.Ip2 }, tbl)
    else some ({ s with state := State.IgnoredLine }, tbl)
  | State.Ip2 =>
    if isdigit c then
      some ({ s with work := (s.work * 10 + digitVal c) % M32 }, tbl)
    else if c = '.' then
      some (⟨State.IpDot2, s.addr ||| ((s.work &&& 255) <<< 8), 0, s.host⟩, tbl)
    else some ({ s with state := State.IgnoredLine }, tbl)
  | State.IpDot2 =>
    if isdigit c then some ({ s with work := digitVal c, state := State.Ip3 }, tbl)
    else some ({ s with state := State.IgnoredLine }, tbl)
  | State.Ip3 =>
    if isdigit c then
      some ({ s with work := (s.work * 10 + digitVal c) % M32 }, tbl)
    else if c = '.' then
      some (⟨State.IpDot3, s.addr ||| ((s.work &&& 255) <<< 16), 0, s.host⟩, tbl)
    else some ({ s with state := State.IgnoredLine }, tbl)
  | State.IpDot3 =>
    if isdigit c then some ({ s with work := digitVal c, state := State.Ip4 }, tbl)
    else some ({ s with state := State.IgnoredLine }, tbl)
  | State.Ip4 =>
    if isdigit c then
      some ({ s with work := (s.work * 10 + digitVal c) % M32 }, tbl)
    else if c = ' ' ∨ c = '\t' then
      some (⟨State.WhiteSpace, s.addr ||| ((s.work &&& 255) <<< 24), 0, s.host⟩, tbl)
    else some ({ s with state := State.IgnoredLine }, tbl)
  | State.WhiteSpace =>
    if c = '\n' then some ({ s with state := State.BeginLine }, tbl)
    else if c = ' ' ∨ c = '\r' ∨ c = '\t' then some (s, tbl)
    else some (⟨State.HostName, s.addr, 1, [c]⟩, tbl)
  | State.HostName =>
    if c = ' ' ∨ c = '\r' ∨ c = '\n' ∨ c = '\t' then
      if s.work < 512 then
        if c = '\n' then
          some (⟨State.BeginLine, s.addr, s.work, s.host⟩, mapInsert tbl s.host s.addr)
        else
          some (⟨State.WhiteSpace, s.addr, s.work, s.host⟩, mapInsert tbl s.host s.addr)
      else none
    else
      if s.work < 511 then
        some (⟨State.HostName, s.addr, s.work + 1, s.host ++ [c]⟩, tbl)
      else none

/-- The `for` loop of `ParseHostsFile` over an already-NUL-truncated input. -/
def parseLoop (tbl : Table) (s : PState) : List Char → Option (PState × Table)
  | [] => some (s, tbl)
  | c :: cs =>
    match step tbl s c with
    | none => none
    | some (s', tbl') => parseLoop tbl' s' cs

/-- The post-loop commit of `ParseHostsFile` (source lines 173-178). -/
def finishParse (r : Option (PState × Table)) : Option Table :=
  match r with
  | none => none
  | some (s, tbl) =>
    if s.state = State.HostName then
      if s.work < 512 then some (mapInsert tbl s.host s.addr) else none
    else some tbl

/-- Initial parser state: `state = State::BeginLine`; the other locals are
uninitialized in the source and never read before being written, so their
initial values are irrelevant and fixed to zeros here. -/
def initPState : PState := ⟨State.BeginLine, 0, 0, []⟩

/-- `ParseHostsFile(file_data)` run against table `tbl`: returns the updated
table, or `none` if the process aborts. -/
def ParseHostsFile (file_data : List Char) (tbl : Table) : Option Table :=
  finishParse (parseLoop tbl initPState (file_data.takeWhile (fun c => !(c == nulChar))))

/-- `GetRedirectedHostByName` (source lines 303-314): linear scan with exact
byte-for-byte comparison; `none` models returning `false` with `*out` unset. -/
def GetRedirectedHostByName (tbl : Table) (hostname : List Char) : Option Nat :=
  match tbl with
  | [] => none
  | (host, address) :: rest =>
    if host = hostname then some address else GetRedirectedHostByName rest hostname

/-- Lowercase hex digit for a value below 16. -/
def hexDigitChar (n : Nat) : Char :=
  if n < 10 then Char.ofNat (48 + n) else Char.ofNat (87 + n)

/-- Hex digits of `n`, most significant first, fuelled (8 digits suffice for a
`u32`). -/
def hexAux : Nat → Nat → List Char
  | 0, _ => []
  | fuel + 1, n =>
    if n < 16 then [hexDigitChar n]
    else hexAux fuel (n / 16) ++ [hexDigitChar (n % 16)]

/-- `util::SNPrintf("%04x", id)` for a `u32` id: lowercase hex, zero-padded to
a minimum width of four digits. -/
def hex4 (n : Nat) : List Char :=
  let ds := hexAux 8 (n % M32)
  List.replicate (4 - ds.length) '0' ++ ds

/-- `g_specific_emummc_hosts_path`: the path written at source line 201. -/
def specificEmummcPath (id : Nat) : String :=
  "/hosts/emummc_" ++ String.mk (hex4 id)

/-- `SelectHostsFile` (source lines 197-221) over a file-existence oracle `ex`
(for `mitm::fs::HasAtmosphereSdFile`), the `emummc::IsActive()` flag, and the
`emummc::GetActiveId()` value.  Logging is side-effect-only and not modelled. -/
def SelectHostsFile (ex : String → Bool) (is_emummc : Bool) (emummc_id : Nat) : String :=
  if is_emummc then
    if ex (specificEmummcPath emummc_id) then specificEmummcPath emummc_id
    else if ex ("/hosts/emummc") then "/hosts/emummc"
    else "/hosts/default"
  else
    if ex ("/hosts/sysmmc") then "/hosts/sysmmc"
    else "/hosts/default"

/-- The characters of a string literal, for writing concrete inputs. -/
def chars (s : String) : List Char := s.data

/-- A byte that neither terminates a hostname token nor is special inside one. -/
def isHostByte (c : Char) : Prop :=
  c ≠ ' ' ∧ c ≠ '\r' ∧ c ≠ '\n' ∧ c ≠ '\t'

instance (c : Char) : Decidable (isHostByte c) := by
  unfold isHostByte
  infer_instance

/-- No NUL byte occurs in the list. -/
def noNul (l : List Char) : Prop := ∀ c ∈ l, c ≠ nulChar

/-- The `u32` accumulation `work = work * 10 + (c - '0')` over a digit run. -/
def accD (w : Nat) (ds : List Char) : Nat :=
  ds.foldl (fun a c => (a * 10 + digitVal c) % M32) w

/-- The plain decimal value of a digit run. -/
def decVal (ds : List Char) : Nat :=
  ds.foldl (fun a c => a * 10 + digitVal c) 0

/-- Insert every hostname of `ts` with the same address `a`. -/
def insertAll (tbl : Table) (ts : List (List Char)) (a : Nat) : Table :=
  ts.foldl (fun t k => mapInsert t k a) tbl

/-- Hostname tokens joined by single spaces. -/
def joinTokens : List (List Char) → List Char
  | [] => []
  | [t] => t
  | t :: t' :: ts => t ++ ' ' :: joinTokens (t' :: ts)

/-- The dotted-quad text of an entry line, before the separating whitespace. -/
def quadText (a b c d : List Char) : List Char :=
  a ++ '.' :: b ++ '.' :: c ++ '.' :: d

/-- The committed 32-bit address of a dotted quad: first octet in the
lowest-order byte, each octet value reduced mod 256. -/
def quadAddr (a b c d : List Char) : Nat :=
  decVal a % 256 + decVal b % 256 * 256 + decVal c % 256 * 65536 +
    decVal d % 256 * 16777216


theorem takeWhile_noNul {l : List Char} (h : noNul l) :
    l.takeWhile (fun c => !(c == nulChar)) = l := by
  induction l with
  | nil => rfl
  | cons c cs ih =>
    have hc : c ≠ nulChar := h c (by simp)
    have hb : (!(c == nulChar)) = true := by simp [hc]
    simp only [List.takeWhile_cons, hb, if_true]
    rw [ih (fun d hd => h d (by simp [hd]))]

theorem parseLoop_append (xs ys : List Char) : ∀ tbl s,
    parseLoop tbl s (xs ++ ys) =
      (parseLoop tbl s xs).bind (fun r => parseLoop r.2 r.1 ys) := by
  induction xs with
  | nil => intro tbl s; rfl
  | cons c cs ih =>
    intro tbl s
    simp only [List.cons_append, parseLoop]
    cases h : step tbl s c with
    | none => rfl
    | some r =>
      cases r with
      | mk s' t' => simpa using ih t' s'

theorem ignored_run (L : List Char) (hL : ∀ c ∈ L, c ≠ '\n') : ∀ tbl a w h,
    parseLoop tbl ⟨State.IgnoredLine, a, w, h⟩ L =
      some (⟨State.IgnoredLine, a, w, h⟩, tbl) := by
  induction L with
  | nil => intro tbl a w h; rfl
  | cons c cs ih =>
    intro tbl a w h
    have hc : c ≠ '\n' := hL c (by simp)
    simp only [parseLoop, step, hc, if_false]
    exact ih (fun d hd => hL d (by simp [hd])) tbl a w h

theorem digit_run (ds : List Char) (hds : ∀ c ∈ ds, isdigit c = true) :
    ∀ st, st = State.Ip1 ∨ st = State.Ip2 ∨ st = State.Ip3 ∨ st = State.Ip4 →
    ∀ tbl a w h, parseLoop tbl ⟨st, a, w, h⟩ ds =
      some (⟨st, a, accD w ds, h⟩, tbl) := by
  induction ds with
  | nil => intro st _ tbl a w h; rfl
  | cons c cs ih =>
    intro st hst tbl a w h
    have hc : isdigit c = true := hds c (by simp)
    have ih' := ih (fun d hd => hds d (by simp [hd])) st hst tbl a
      ((w * 10 + digitVal c) % M32) h
    have hacc : accD w (c :: cs) = accD ((w * 10 + digitVal c) % M32) cs := rfl
    rw [hacc]
    rcases hst with h1 | h1 | h1 | h1 <;>
      subst h1 <;>
      simp only [parseLoop, step, hc, if_true] <;>
      exact ih'

theorem host_run (t : List Char) (ht : ∀ c ∈ t, isHostByte c) :
    ∀ tbl a w h, w + t.length ≤ 511 →
    parseLoop tbl ⟨State.HostName, a, w, h⟩ t =
      some (⟨State.HostName, a, w + t.length, h ++ t⟩, tbl) := by
  induction t with
  | nil => intro tbl a w h _; simp [parseLoop]
  | cons c cs ih =>
    intro tbl a w h hlen
    obtain ⟨h1, h2, h3, h4⟩ := ht c (by simp)
    have hw : w < 511 := by
      have : cs.length + 1 = (c :: cs).length := by simp
      omega
    simp only [parseLoop, step, h1, h2, h3, h4, or_self, if_false, hw, if_true]
    have := ih (fun d hd => ht d (by simp [hd])) tbl a (w + 1) (h ++ [c])
      (by simp at hlen ⊢; omega)
    simpa [List.append_assoc, Nat.add_comm, Nat.add_assoc, Nat.add_left_comm] using this

theorem host_abort (t : List Char) (ht : ∀ c ∈ t, isHostByte c) :
    ∀ tbl a w h, 512 ≤ w + t.length → w ≤ 511 →
    parseLoop tbl ⟨State.HostName, a, w, h⟩ t = none := by
  induction t with
  | nil => intro tbl a w h habs hw; simp at habs; omega
  | cons c cs ih =>
    intro tbl a w h habs hw
    obtain ⟨h1, h2, h3, h4⟩ := ht c (by simp)
    by_cases hlt : w < 511
    · simp only [parseLoop, step, h1, h2, h3, h4, or_self, if_false, hlt, if_true]
      exact ih (fun d hd => ht d (by simp [hd])) tbl a (w + 1) (h ++ [c])
        (by simp at habs ⊢; omega) (by omega)
    · simp only [parseLoop, step, h1, h2, h3, h4, or_self, if_false, hlt]

theorem land255 (x : Nat) : x &&& 255 = x % 256 := by
  have h : (255 : Nat) = 2 ^ 8 - 1 := by norm_num
  rw [h, Nat.and_pow_two_sub_one_eq_mod]

theorem lor_shift {a : Nat} (b k : Nat) (h : a < 2 ^ k) :
    a ||| (b <<< k) = a + b * 2 ^ k := by
  rw [Nat.shiftLeft_eq, Nat.mul_comm b (2 ^ k), Nat.or_comm,
    ← Nat.mul_add_lt_is_or h b]
  omega

theorem accD_mod (ds : List Char) : ∀ w,
    accD (w % M32) ds = (ds.foldl (fun a c => a * 10 + digitVal c) w) % M32 := by
  induction ds with
  | nil => intro w; rfl
  | cons c cs ih =>
    intro w
    have hstep : ((w % M32) * 10 + digitVal c) % M32 = (w * 10 + digitVal c) % M32 := by
      simp only [M32]
      omega
    have : accD (w % M32) (c :: cs) = accD (((w % M32) * 10 + digitVal c) % M32) cs := rfl
    rw [this, hstep]
    exact ih (w * 10 + digitVal c)

theorem digitVal_lt_M32 {c : Char} (hc : isdigit c = true) : digitVal c < M32 := by
  simp only [isdigit, Bool.and_eq_true, decide_eq_true_eq] at hc
  simp only [digitVal, M32]
  omega

theorem lookup_mapInsert (t : Table) (k : List Char) (v : Nat) (q : List Char) :
    GetRedirectedHostByName (mapInsert t k v) q =
      if q = k then some v else GetRedirectedHostByName t q := by
  induction t with
  | nil =>
    by_cases hq : q = k
    · subst hq; simp [mapInsert, GetRedirectedHostByName]
    · have hq' : ¬k = q := fun h => hq h.symm
      simp [mapInsert, GetRedirectedHostByName, hq, hq']
  | cons p rest ih =>
    obtain ⟨k', v'⟩ := p
    by_cases hk : k' = k
    · subst hk
      by_cases hq : q = k'
      · subst hq; simp [mapInsert, GetRedirectedHostByName]
      · have hq' : ¬k' = q := fun h => hq h.symm
        simp [mapInsert, GetRedirectedHostByName, hq, hq']
    · by_cases hq : k' = q
      · have hqk : ¬q = k := fun h => hk (hq.trans h)
        simp [mapInsert, GetRedirectedHostByName, hk, hq, hqk]
      · simp [mapInsert, GetRedirectedHostByName, hk, hq, ih]

theorem parseLoop_cons_some {tbl s c s' tbl'} (h : step tbl s c = some (s', tbl'))
    (cs : List Char) : parseLoop tbl s (c :: cs) = parseLoop tbl' s' cs := by
  simp [parseLoop, h]

theorem parseLoop_cons_eq (s2 : PState) (t2 : Table) {tbl : Table} {s : PState} {c : Char}
    (h : step tbl s c = some (s2, t2)) (cs : List Char) :
    parseLoop tbl s (c :: cs) = parseLoop t2 s2 cs := by
  simp [parseLoop, h]

theorem digit_run_cont (ds rest : List Char) (hds : ∀ c ∈ ds, isdigit c = true)
    (st : State) (hst : st = State.Ip1 ∨ st = State.Ip2 ∨ st = State.Ip3 ∨ st = State.Ip4)
    (tbl : Table) (a w : Nat) (h : List Char) :
    parseLoop tbl ⟨st, a, w, h⟩ (ds ++ rest) =
      parseLoop tbl ⟨st, a, accD w ds, h⟩ rest := by
  rw [parseLoop_append, digit_run ds hds st hst]
  rfl

theorem host_run_cont (t rest : List Char) (ht : ∀ c ∈ t, isHostByte c)
    (tbl : Table) (a w : Nat) (h : List Char) (hlen : w + t.length ≤ 511) :
    parseLoop tbl ⟨State.HostName, a, w, h⟩ (t ++ rest) =
      parseLoop tbl ⟨State.HostName, a, w + t.length, h ++ t⟩ rest := by
  rw [parseLoop_append, host_run t ht tbl a w h hlen]
  rfl

theorem accD_decVal (c : Char) (t : List Char) (hc : isdigit c = true) :
    accD (digitVal c) t = decVal (c :: t) % M32 := by
  have h0 : digitVal c % M32 = digitVal c := Nat.mod_eq_of_lt (digitVal_lt_M32 hc)
  have h1 : decVal (c :: t) = t.foldl (fun a d => a * 10 + digitVal d) (digitVal c) := by
    simp [decVal]
  rw [h1, ← accD_mod, h0]

theorem mod_M32_mod_256 (x : Nat) : x % M32 % 256 = x % 256 :=
  Nat.mod_mod_of_dvd x ⟨16777216, by norm_num [M32]⟩

theorem lor_shift8 {a : Nat} (b : Nat) (h : a < 256) : a ||| (b <<< 8) = a + b * 256 := by
  rw [show (256 : Nat) = 2 ^ 8 by norm_num] at h ⊢
  exact lor_shift b 8 h

theorem lor_shift16 {a : Nat} (b : Nat) (h : a < 65536) : a ||| (b <<< 16) = a + b * 65536 := by
  rw [show (65536 : Nat) = 2 ^ 16 by norm_num] at h ⊢
  exact lor_shift b 16 h

theorem lor_shift24 {a : Nat} (b : Nat) (h : a < 16777216) :
    a ||| (b <<< 24) = a + b * 16777216 := by
  rw [show (16777216 : Nat) = 2 ^ 24 by norm_num] at h ⊢
  exact lor_shift b 24 h

theorem quad_space_run (ds1 ds2 ds3 ds4 : List Char)
    (h1 : ds1 ≠ []) (h2 : ds2 ≠ []) (h3 : ds3 ≠ []) (h4 : ds4 ≠ [])
    (hd1 : ∀ c ∈ ds1, isdigit c = true) (hd2 : ∀ c ∈ ds2, isdigit c = true)
    (hd3 : ∀ c ∈ ds3, isdigit c = true) (hd4 : ∀ c ∈ ds4, isdigit c = true)
    (rest : List Char) (tbl : Table) (a w : Nat) (h : List Char) :
    parseLoop tbl ⟨State.BeginLine, a, w, h⟩ (quadText ds1 ds2 ds3 ds4 ++ ' ' :: rest) =
      parseLoop tbl ⟨State.WhiteSpace, quadAddr ds1 ds2 ds3 ds4, 0, h⟩ rest := by
  obtain ⟨c1, t1, rfl⟩ := List.exists_cons_of_ne_nil h1
  obtain ⟨c2, t2, rfl⟩ := List.exists_cons_of_ne_nil h2
  obtain ⟨c3, t3, rfl⟩ := List.exists_cons_of_ne_nil h3
  obtain ⟨c4, t4, rfl⟩ := List.exists_cons_of_ne_nil h4
  have hc1 : isdigit c1 = true := hd1 c1 (by simp)
  have hc2 : isdigit c2 = true := hd2 c2 (by simp)
  have hc3 : isdigit c3 = true := hd3 c3 (by simp)
  have hc4 : isdigit c4 = true := hd4 c4 (by simp)
  have ht1 : ∀ c ∈ t1, isdigit c = true := fun c hc => hd1 c (by simp [hc])
  have ht2 : ∀ c ∈ t2, isdigit c = true := fun c hc => hd2 c (by simp [hc])
  have ht3 : ∀ c ∈ t3, isdigit c = true := fun c hc => hd3 c (by simp [hc])
  have ht4 : ∀ c ∈ t4, isdigit c = true := fun c hc => hd4 c (by simp [hc])
  have hdotd : isdigit '.' = false := by decide
  have hspd : isdigit ' ' = false := by decide
  have m1 : decVal (c1 :: t1) % 256 < 256 := Nat.mod_lt _ (by norm_num)
  have m2 : decVal (c2 :: t2) % 256 < 256 := Nat.mod_lt _ (by norm_num)
  have m3 : decVal (c3 :: t3) % 256 < 256 := Nat.mod_lt _ (by norm_num)
  have m12 : decVal (c1 :: t1) % 256 + decVal (c2 :: t2) % 256 * 256 < 65536 := by omega
  have m123 : decVal (c1 :: t1) % 256 + decVal (c2 :: t2) % 256 * 256 +
      decVal (c3 :: t3) % 256 * 65536 < 16777216 := by omega
  have hq : quadText (c1 :: t1) (c2 :: t2) (c3 :: t3) (c4 :: t4) ++ ' ' :: rest =
      c1 :: (t1 ++ '.' :: (c2 :: (t2 ++ '.' :: (c3 :: (t3 ++ '.' :: (c4 :: (t4 ++ ' ' :: rest))))))) := by
    simp [quadText]
  rw [hq]
  rw [parseLoop_cons_eq (⟨State.Ip1, 0, digitVal c1, h⟩) (tbl)
    (by simp [step, hc1])]
  rw [digit_run_cont t1 _ ht1 State.Ip1 (by simp) tbl 0 (digitVal c1) h]
  rw [accD_decVal c1 t1 hc1]
  rw [parseLoop_cons_eq (⟨State.IpDot1, decVal (c1 :: t1) % 256, 0, h⟩) (tbl)
    (by simp [step, hdotd, land255, mod_M32_mod_256])]
  rw [parseLoop_cons_eq (⟨State.Ip2, decVal (c1 :: t1) % 256, digitVal c2, h⟩)
    (tbl) (by simp [step, hc2])]
  rw [digit_run_cont t2 _ ht2 State.Ip2 (by simp) tbl (decVal (c1 :: t1) % 256) (digitVal c2) h]
  rw [accD_decVal c2 t2 hc2]
  rw [parseLoop_cons_eq
    (⟨State.IpDot2, decVal (c1 :: t1) % 256 + decVal (c2 :: t2) % 256 * 256, 0, h⟩)
    (tbl)
    (by simp [step, hdotd, land255, mod_M32_mod_256, lor_shift8 _ m1])]
  rw [parseLoop_cons_eq
    (⟨State.Ip3, decVal (c1 :: t1) % 256 + decVal (c2 :: t2) % 256 * 256, digitVal c3, h⟩)
    (tbl) (by simp [step, hc3])]
  rw [digit_run_cont t3 _ ht3 State.Ip3 (by simp) tbl
    (decVal (c1 :: t1) % 256 + decVal (c2 :: t2) % 256 * 256) (digitVal c3) h]
  rw [accD_decVal c3 t3 hc3]
  rw [parseLoop_cons_eq
    (⟨State.IpDot3, decVal (c1 :: t1) % 256 + decVal (c2 :: t2) % 256 * 256 +
      decVal (c3 :: t3) % 256 * 65536, 0, h⟩)
    (tbl)
    (by simp [step, hdotd, land255, mod_M32_mod_256, lor_shift16 _ m12])]
  rw [parseLoop_cons_eq
    (⟨State.Ip4, decVal (c1 :: t1) % 256 + decVal (c2 :: t2) % 256 * 256 +
      decVal (c3 :: t3) % 256 * 65536, digitVal c4, h⟩)
    (tbl) (by simp [step, hc4])]
  rw [digit_run_cont t4 _ ht4 State.Ip4 (by simp) tbl
    (decVal (c1 :: t1) % 256 + decVal (c2 :: t2) % 256 * 256 +
      decVal (c3 :: t3) % 256 * 65536) (digitVal c4) h]
  rw [accD_decVal c4 t4 hc4]
  rw [parseLoop_cons_eq
    (⟨State.WhiteSpace, decVal (c1 :: t1) % 256 + decVal (c2 :: t2) % 256 * 256 +
      decVal (c3 :: t3) % 256 * 65536 + decVal (c4 :: t4) % 256 * 16777216, 0, h⟩)
    (tbl)
    (by simp [step, hspd, land255, mod_M32_mod_256, lor_shift24 _ m123])]
  rfl

theorem token_entry (c : Char) (hc : isHostByte c) (tbl : Table) (a w : Nat) (h : List Char) :
    step tbl ⟨State.WhiteSpace, a, w, h⟩ c = some (⟨State.HostName, a, 1, [c]⟩, tbl) := by
  obtain ⟨hs, hr, hn, ht⟩ := hc
  simp [step, hs, hr, hn, ht]

theorem token_nl (t : List Char) (ht : ∀ c ∈ t, isHostByte c) (hne : t ≠ [])
    (hlen : t.length ≤ 511) (rest : List Char) (tbl : Table) (a w : Nat) (h : List Char) :
    parseLoop tbl ⟨State.WhiteSpace, a, w, h⟩ (t ++ '\n' :: rest) =
      parseLoop (mapInsert tbl t a) ⟨State.BeginLine, a, t.length, t⟩ rest := by
  obtain ⟨c, t', rfl⟩ := List.exists_cons_of_ne_nil hne
  rw [List.cons_append]
  rw [parseLoop_cons_some (token_entry c (ht c (by simp)) tbl a w h)]
  rw [host_run_cont t' ('\n' :: rest) (fun d hd => ht d (by simp [hd])) tbl a 1 [c]
    (by simp at hlen ⊢; omega)]
  have hlt : 1 + t'.length < 512 := by simp at hlen; omega
  rw [parseLoop_cons_eq (⟨State.BeginLine, a, 1 + t'.length, c :: t'⟩)
    (mapInsert tbl (c :: t') a) (by simp [step, hlt])]
  have hw : 1 + t'.length = (c :: t').length := by simp; omega
  rw [hw]

theorem token_sp (t : List Char) (ht : ∀ c ∈ t, isHostByte c) (hne : t ≠ [])
    (hlen : t.length ≤ 511) (rest : List Char) (tbl : Table) (a w : Nat) (h : List Char) :
    parseLoop tbl ⟨State.WhiteSpace, a, w, h⟩ (t ++ ' ' :: rest) =
      parseLoop (mapInsert tbl t a) ⟨State.WhiteSpace, a, t.length, t⟩ rest := by
  obtain ⟨c, t', rfl⟩ := List.exists_cons_of_ne_nil hne
  rw [List.cons_append]
  rw [parseLoop_cons_some (token_entry c (ht c (by simp)) tbl a w h)]
  rw [host_run_cont t' (' ' :: rest) (fun d hd => ht d (by simp [hd])) tbl a 1 [c]
    (by simp at hlen ⊢; omega)]
  have hlt : 1 + t'.length < 512 := by simp at hlen; omega
  rw [parseLoop_cons_eq (⟨State.WhiteSpace, a, 1 + t'.length, c :: t'⟩)
    (mapInsert tbl (c :: t') a) (by simp [step, hlt])]
  have hw : 1 + t'.length = (c :: t').length := by simp; omega
  rw [hw]

theorem tokens_commit (rest : List Char) : ∀ ts : List (List Char), ts ≠ [] →
    (∀ t ∈ ts, t ≠ [] ∧ t.length ≤ 511 ∧ ∀ c ∈ t, isHostByte c) →
    ∀ tbl a w h, ∃ w' h',
    parseLoop tbl ⟨State.WhiteSpace, a, w, h⟩ (joinTokens ts ++ '\n' :: rest) =
      parseLoop (insertAll tbl ts a) ⟨State.BeginLine, a, w', h'⟩ rest := by
  intro ts
  induction ts with
  | nil => intro hne; exact absurd rfl hne
  | cons t ts ih =>
    intro _ hall tbl a w h
    obtain ⟨htne, htlen, htbytes⟩ := hall t (by simp)
    cases ts with
    | nil =>
      refine ⟨t.length, t, ?_⟩
      have hj : joinTokens [t] = t := rfl
      rw [hj, token_nl t htbytes htne htlen rest tbl a w h]
      rfl
    | cons t2 ts2 =>
      have hjoin : joinTokens (t :: t2 :: ts2) ++ '\n' :: rest =
          t ++ ' ' :: (joinTokens (t2 :: ts2) ++ '\n' :: rest) := by
        simp [joinTokens]
      rw [hjoin]
      rw [token_sp t htbytes htne htlen _ tbl a w h]
      obtain ⟨w', h', hrec⟩ := ih (by simp) (fun u hu => hall u (by simp [hu]))
        (mapInsert tbl t a) a t.length t
      exact ⟨w', h', by rw [hrec]; rfl⟩

theorem mem_joinTokens : ∀ ts : List (List Char), ∀ c ∈ joinTokens ts,
    c = ' ' ∨ ∃ t ∈ ts, c ∈ t := by
  intro ts
  induction ts with
  | nil => intro c hc; simp [joinTokens] at hc
  | cons t ts ih =>
    cases ts with
    | nil =>
      intro c hc
      have hc' : c ∈ t := by simpa [joinTokens] using hc
      exact Or.inr ⟨t, by simp, hc'⟩
    | cons t2 ts2 =>
      intro c hc
      have hc' : c ∈ t ∨ c = ' ' ∨ c ∈ joinTokens (t2 :: ts2) := by
        simpa [joinTokens] using hc
      rcases hc' with hct | hsp | hrest
      · exact Or.inr ⟨t, by simp, hct⟩
      · exact Or.inl hsp
      · rcases ih c hrest with hsp | ⟨u, hu, hcu⟩
        · exact Or.inl hsp
        · exact Or.inr ⟨u, by simp [hu], hcu⟩

theorem junk_line_skip (c : Char) (L rest : List Char) (hc : isdigit c = false)
    (hL : ∀ d ∈ L, d ≠ '\n') (tbl : Table) (a w : Nat) (h : List Char) :
    parseLoop tbl ⟨State.BeginLine, a, w, h⟩ ((c :: L) ++ '\n' :: rest) =
      parseLoop tbl ⟨State.BeginLine, a, w, h⟩ rest := by
  rw [List.cons_append]
  rw [parseLoop_cons_eq (⟨State.IgnoredLine, a, w, h⟩) (tbl)
    (by simp [step, hc])]
  rw [parseLoop_append, ignored_run L hL tbl a w h]
  show parseLoop tbl ⟨State.IgnoredLine, a, w, h⟩ ('\n' :: rest) = _
  rw [parseLoop_cons_eq (⟨State.BeginLine, a, w, h⟩) (tbl)
    (by simp [step])]

theorem finish_step_newline (s : PState) (tbl : Table) :
    finishParse (parseLoop tbl s ['\n']) = finishParse (some (s, tbl)) := by
  obtain ⟨st, a, w, h⟩ := s
  have hnl : isdigit '\n' = false := by decide
  cases st
  case HostName => by_cases hw : w < 512 <;> simp [parseLoop, step, finishParse, hw]
  all_goals simp [parseLoop, step, finishParse, hnl]

theorem takeWhile_append_stop {p : Char → Bool} (data ys : List Char)
    (h : ¬ ∀ c ∈ data, p c = true) :
    (data ++ ys).takeWhile p = data.takeWhile p := by
  induction data with
  | nil => exact absurd (by simp) h
  | cons c cs ih =>
    by_cases hc : p c = true
    · have hcs : ¬ ∀ d ∈ cs, p d = true := by
        intro hall
        exact h (by
          intro d hd
          rcases List.mem_cons.mp hd with rfl | hd'
          · exact hc
          · exact hall d hd')
      simp [List.takeWhile_cons, hc, ih hcs]
    · have hc' : p c = false := by revert hc; cases p c <;> simp
      simp [List.takeWhile_cons, hc']

theorem takeWhile_append_all {p : Char → Bool} (xs ys : List Char)
    (h : ∀ c ∈ xs, p c = true) : (xs ++ ys).takeWhile p = xs ++ ys.takeWhile p := by
  induction xs with
  | nil => simp
  | cons c cs ih =>
    have hc : p c = true := h c (by simp)
    simp [List.takeWhile_cons, hc, ih (fun d hd => h d (by simp [hd]))]

theorem isdigit_ne_nul {c : Char} (h : isdigit c = true) : c ≠ nulChar := by
  intro he
  subst he
  exact absurd h (by decide)

theorem mem_quadText {x : Char} {a b c d : List Char} (hx : x ∈ quadText a b c d) :
    x ∈ a ∨ x ∈ b ∨ x ∈ c ∨ x ∈ d ∨ x = '.' := by
  simp only [quadText, List.mem_append, List.mem_cons] at hx
  tauto

/-- Claim C2: every committed entry whose address text is four digit-runs with
decimal values `a, b, c, d` stores the 32-bit value
`a mod 256 + (b mod 256)*2^8 + (c mod 256)*2^16 + (d mod 256)*2^24`;
the first octet occupies the lowest-order byte and over-255 runs are truncated
mod 256, never rejected. -/
theorem C2_quad_address (ds1 ds2 ds3 ds4 host : List Char)
    (h1 : ds1 ≠ []) (h2 : ds2 ≠ []) (h3 : ds3 ≠ []) (h4 : ds4 ≠ [])
    (hd1 : ∀ c ∈ ds1, isdigit c = true) (hd2 : ∀ c ∈ ds2, isdigit c = true)
    (hd3 : ∀ c ∈ ds3, isdigit c = true) (hd4 : ∀ c ∈ ds4, isdigit c = true)
    (hh : host ≠ []) (hhlen : host.length ≤ 511)
    (hhb : ∀ c ∈ host, isHostByte c ∧ c ≠ nulChar) :
    ParseHostsFile (quadText ds1 ds2 ds3 ds4 ++ ' ' :: (host ++ ['\n'])) [] =
      some [(host, decVal ds1 % 256 + decVal ds2 % 256 * 256 +
        decVal ds3 % 256 * 65536 + decVal ds4 % 256 * 16777216)] := by
  have hnul : noNul (quadText ds1 ds2 ds3 ds4 ++ ' ' :: (host ++ ['\n'])) := by
    intro x hx
    rcases List.mem_append.mp hx with hq | hrest
    · rcases mem_quadText hq with hm | hm | hm | hm | hm
      · exact isdigit_ne_nul (hd1 x hm)
      · exact isdigit_ne_nul (hd2 x hm)
      · exact isdigit_ne_nul (hd3 x hm)
      · exact isdigit_ne_nul (hd4 x hm)
      · subst hm; decide
    · rcases List.mem_cons.mp hrest with rfl | h2
      · decide
      · rcases List.mem_append.mp h2 with hh2 | hn
        · exact (hhb x hh2).2
        · rcases List.mem_cons.mp hn with rfl | hf
          · decide
          · simp at hf
  unfold ParseHostsFile
  rw [takeWhile_noNul hnul]
  simp only [initPState]
  rw [quad_space_run ds1 ds2 ds3 ds4 h1 h2 h3 h4 hd1 hd2 hd3 hd4 (host ++ ['\n']) [] 0 0 []]
  have hjoin : host ++ ['\n'] = host ++ '\n' :: ([] : List Char) := rfl
  rw [hjoin, token_nl host (fun c hc => (hhb c hc).1) hh hhlen []]
  simp [parseLoop, finishParse, mapInsert, quadAddr]

/-- Claim C2 witness: parsing a concrete hosts line commits the dotted quad
`127.0.0.1` as the little-endian value `0x0100007F` for hostname `a.com`. -/
theorem C2_quad_address_witness :
    ParseHostsFile (chars ("127.0.0.1 a.com\n")) [] =
      some [(chars ("a.com"), 16777343)] := by
  have h := C2_quad_address ['1', '2', '7'] ['0'] ['0'] ['1'] ['a', '.', 'c', 'o', 'm']
    (by decide) (by decide) (by decide) (by decide) (by decide) (by decide) (by decide)
    (by decide) (by decide) (by decide) (by decide)
  have e1 : chars ("127.0.0.1 a.com\n") =
      quadText ['1', '2', '7'] ['0'] ['0'] ['1'] ++ ' ' :: (['a', '.', 'c', 'o', 'm'] ++ ['\n']) := by
    decide
  have e2 : chars ("a.com") = ['a', '.', 'c', 'o', 'm'] := by decide
  rw [e1, e2, h]
  decide

theorem replicate_a_hostbytes (m : Nat) : ∀ c ∈ List.replicate m 'a', isHostByte c := by
  intro c hc
  have := List.eq_of_mem_replicate hc
  subst this
  decide

theorem replicate_a_nonul (m : Nat) : ∀ c ∈ List.replicate m 'a', c ≠ nulChar := by
  intro c hc
  have := List.eq_of_mem_replicate hc
  subst this
  decide

theorem prefix1234_nonul : ∀ c ∈ chars ("1.2.3.4 "), c ≠ nulChar := by decide

theorem prefix1234_run :
    parseLoop [] initPState (chars ("1.2.3.4 ")) =
      some (⟨State.WhiteSpace, 67305985, 0, []⟩, []) := by decide

/-- Claim C1 counterexample: a hostname of exactly 511 bytes does NOT trigger
the fatal abort; it parses successfully and commits an entry, refuting the
claimed 510/511 boundary. -/
theorem C1_hostname_boundary_counterexample :
    ParseHostsFile (chars ("1.2.3.4 ") ++ (List.replicate 511 'a' ++ ['\n'])) [] =
      some [(List.replicate 511 'a', 67305985)] := by
  have hnul : noNul (chars ("1.2.3.4 ") ++ (List.replicate 511 'a' ++ ['\n'])) := by
    intro x hx
    rcases List.mem_append.mp hx with hp | hr
    · exact prefix1234_nonul x hp
    · rcases List.mem_append.mp hr with ha | hn
      · exact replicate_a_nonul 511 x ha
      · rcases List.mem_cons.mp hn with rfl | hf
        · decide
        · simp at hf
  unfold ParseHostsFile
  rw [takeWhile_noNul hnul, parseLoop_append, prefix1234_run]
  simp only [Option.bind]
  rw [show (List.replicate 511 'a' ++ ['\n'] : List Char) =
    List.replicate 511 'a' ++ '\n' :: [] from rfl]
  rw [token_nl (List.replicate 511 'a') (replicate_a_hostbytes 511) (by simp)
    (by simp) []]
  simp [parseLoop, finishParse, mapInsert]

/-- Claim C1 (amended): `ParseHostsFile` aborts fatally exactly when a hostname
token reaches 512 bytes without a terminator: a hostname of exactly 511 bytes
parses successfully and commits an entry, while a hostname of 512 or more bytes
triggers the fatal abort.  Stated over the line `1.2.3.4 a…a\n` with `n`
copies of `a`: the parse succeeds iff `n ≤ 511` and aborts iff `n ≥ 512`. -/
theorem C1_hostname_boundary (n : Nat) (hn : 1 ≤ n) :
    ParseHostsFile (chars ("1.2.3.4 ") ++ (List.replicate n 'a' ++ ['\n'])) [] =
      (if n ≤ 511 then some [(List.replicate n 'a', 67305985)] else none) := by
  have hnul : noNul (chars ("1.2.3.4 ") ++ (List.replicate n 'a' ++ ['\n'])) := by
    intro x hx
    rcases List.mem_append.mp hx with hp | hr
    · exact prefix1234_nonul x hp
    · rcases List.mem_append.mp hr with ha | hnn
      · exact replicate_a_nonul n x ha
      · rcases List.mem_cons.mp hnn with rfl | hf
        · decide
        · simp at hf
  unfold ParseHostsFile
  rw [takeWhile_noNul hnul, parseLoop_append, prefix1234_run]
  simp only [Option.bind]
  obtain ⟨m, rfl⟩ : ∃ m, n = m + 1 := ⟨n - 1, by omega⟩
  by_cases hle : m + 1 ≤ 511
  · rw [if_pos hle]
    rw [show (List.replicate (m + 1) 'a' ++ ['\n'] : List Char) =
      List.replicate (m + 1) 'a' ++ '\n' :: [] from rfl]
    rw [token_nl (List.replicate (m + 1) 'a') (replicate_a_hostbytes (m + 1)) (by simp)
      (by simp; omega) []]
    simp [parseLoop, finishParse, mapInsert]
  · rw [if_neg hle]
    rw [List.replicate_succ, List.cons_append]
    rw [parseLoop_cons_some (token_entry 'a' (by decide) [] 67305985 0 [])]
    rw [parseLoop_append]
    rw [host_abort (List.replicate m 'a') (replicate_a_hostbytes m) [] 67305985 1 ['a']
      (by simp; omega) (by omega)]
    simp [finishParse]

/-- Claim C1 witness: the amended boundary theorem applied at `n = 511`. -/
theorem C1_hostname_boundary_witness :
    1 ≤ 511 ∧
    ParseHostsFile (chars ("1.2.3.4 ") ++ (List.replicate 511 'a' ++ ['\n'])) [] =
      (if 511 ≤ 511 then some [(List.replicate 511 'a', 67305985)] else none) :=
  ⟨by decide, C1_hostname_boundary 511 (by decide)⟩

/-- Claim C3 counterexample: the line `# c` in `"\n# c\n1.2.3.4 h\n"` does not
begin with a digit, yet deleting it changes the resulting table: with the line
present the following entry is committed, with it deleted the table is empty,
because after the empty line the parser is in `IgnoredLine` and the non-digit
line is itself consumed as the skipped line. -/
theorem C3_nondigit_line_counterexample :
    ParseHostsFile (chars ("\n# c\n1.2.3.4 h\n")) [] = some [(['h'], 67305985)] ∧
    ParseHostsFile (chars ("\n1.2.3.4 h\n")) [] = some [] := by
  constructor <;> decide

/-- Claim C3 (amended): a line that does not begin with a digit contributes no
entry and does not affect the parsing of subsequent lines — the resulting
table equals that of the text with the line deleted — provided the parser is
in the line-start state `BeginLine` when it reaches that line (as at the start
of the input or after any committed or junk-consumed line); a non-digit line
reached in `IgnoredLine` state (e.g. immediately after an empty line) is
instead consumed as the skipped line, and deleting it changes which following
line is skipped. -/
theorem C3_nondigit_line (pre : List Char) (c : Char) (L rest : List Char)
    (tbl : Table) (s : PState) (t0 : Table)
    (hpre : noNul pre)
    (hrun : parseLoop tbl initPState pre = some (s, t0))
    (hstate : s.state = State.BeginLine)
    (hc : isdigit c = false) (hcn : c ≠ nulChar)
    (hL : ∀ d ∈ L, d ≠ '\n' ∧ d ≠ nulChar) :
    ParseHostsFile (pre ++ ((c :: L) ++ '\n' :: rest)) tbl =
      ParseHostsFile (pre ++ rest) tbl := by
  obtain ⟨st, a, w, h⟩ := s
  have hst : st = State.BeginLine := hstate
  subst hst
  unfold ParseHostsFile
  have hprep : ∀ d ∈ pre, (fun x => !(x == nulChar)) d = true := by
    intro d hd
    simp [hpre d hd]
  have hjunkp : ∀ d ∈ c :: L, (fun x => !(x == nulChar)) d = true := by
    intro d hd
    rcases List.mem_cons.mp hd with rfl | hdl
    · simp [hcn]
    · simp [(hL d hdl).2]
  rw [takeWhile_append_all pre _ hprep, takeWhile_append_all pre _ hprep]
  rw [takeWhile_append_all (c :: L) _ hjunkp]
  rw [show ('\n' :: rest).takeWhile (fun x => !(x == nulChar)) =
      '\n' :: rest.takeWhile (fun x => !(x == nulChar)) from by
    simp [List.takeWhile_cons, show (('\n' : Char) == nulChar) = false from by decide]]
  rw [parseLoop_append, parseLoop_append, hrun]
  simp only [Option.bind]
  exact congrArg finishParse (junk_line_skip c L _ hc (fun d hd => (hL d hd).1) t0 a w h)

/-- Claim C3 witness: the amended theorem applied with an empty prefix, the
comment line `# c`, and the entry line `1.2.3.4 h` as the rest. -/
theorem C3_nondigit_line_witness :
    ParseHostsFile (([] : List Char) ++ ((['#', ' ', 'c']) ++ '\n' :: chars ("1.2.3.4 h\n"))) [] =
      ParseHostsFile (([] : List Char) ++ chars ("1.2.3.4 h\n")) [] :=
  C3_nondigit_line [] '#' [' ', 'c'] (chars ("1.2.3.4 h\n")) [] initPState []
    (by intro d hd; simp at hd) rfl rfl (by decide) (by decide) (by decide)

/-- Claim C4: consuming a newline in state `BeginLine` or in any of the
IP-parsing states `Ip1..Ip4`, `IpDot1..IpDot3` transitions to `IgnoredLine`,
so the entire following line is consumed as junk and contributes no entries
even when it is a well-formed entry (shown both after an empty line and after
a line holding only a well-formed dotted quad). -/
theorem C4_newline_enters_ignored :
    (∀ tbl a w h, step tbl ⟨State.BeginLine, a, w, h⟩ '\n' =
      some (⟨State.IgnoredLine, a, w, h⟩, tbl))
  ∧ (∀ tbl a w h, step tbl ⟨State.Ip1, a, w, h⟩ '\n' =
      some (⟨State.IgnoredLine, a, w, h⟩, tbl))
  ∧ (∀ tbl a w h, step tbl ⟨State.IpDot1, a, w, h⟩ '\n' =
      some (⟨State.IgnoredLine, a, w, h⟩, tbl))
  ∧ (∀ tbl a w h, step tbl ⟨State.Ip2, a, w, h⟩ '\n' =
      some (⟨State.IgnoredLine, a, w, h⟩, tbl))
  ∧ (∀ tbl a w h, step tbl ⟨State.IpDot2, a, w, h⟩ '\n' =
      some (⟨State.IgnoredLine, a, w, h⟩, tbl))
  ∧ (∀ tbl a w h, step tbl ⟨State.Ip3, a, w, h⟩ '\n' =
      some (⟨State.IgnoredLine, a, w, h⟩, tbl))
  ∧ (∀ tbl a w h, step tbl ⟨State.IpDot3, a, w, h⟩ '\n' =
      some (⟨State.IgnoredLine, a, w, h⟩, tbl))
  ∧ (∀ tbl a w h, step tbl ⟨State.Ip4, a, w, h⟩ '\n' =
      some (⟨State.IgnoredLine, a, w, h⟩, tbl))
  ∧ ParseHostsFile (chars ("1.2.3.4\n5.6.7.8 h\n")) [] = some []
  ∧ ParseHostsFile (chars ("\n5.6.7.8 h\n")) [] = some [] := by
  have hnl : isdigit '\n' = false := by decide
  have hnd : ('\n' : Char) ≠ '.' := by decide
  have hns : ¬(('\n' : Char) = ' ' ∨ ('\n' : Char) = '\t') := by decide
  refine ⟨?_, ?_, ?_, ?_, ?_, ?_, ?_, ?_, ?_, ?_⟩
  · intro tbl a w h; simp [step, hnl]
  · intro tbl a w h; simp [step, hnl, hnd]
  · intro tbl a w h; simp [step, hnl]
  · intro tbl a w h; simp [step, hnl, hnd]
  · intro tbl a w h; simp [step, hnl]
  · intro tbl a w h; simp [step, hnl, hnd]
  · intro tbl a w h; simp [step, hnl]
  · intro tbl a w h; simp [step, hnl, hns]
  · decide
  · decide

theorem lookup_insertAll (ts : List (List Char)) (a : Nat) : ∀ (tbl : Table) (t : List Char),
    (GetRedirectedHostByName tbl t = some a ∨ t ∈ ts) →
    GetRedirectedHostByName (insertAll tbl ts a) t = some a := by
  induction ts with
  | nil =>
    intro tbl t h
    rcases h with h | h
    · exact h
    · simp at h
  | cons u ts ih =>
    intro tbl t h
    have hnext : GetRedirectedHostByName (mapInsert tbl u a) t = some a ∨ t ∈ ts := by
      rcases h with h | h
      · by_cases htu : t = u
        · left; rw [lookup_mapInsert, if_pos htu]
        · left; rw [lookup_mapInsert, if_neg htu]; exact h
      · rcases List.mem_cons.mp h with rfl | hts
        · left; rw [lookup_mapInsert, if_pos rfl]
        · right; exact hts
    have : insertAll tbl (u :: ts) a = insertAll (mapInsert tbl u a) ts a := by
      simp [insertAll]
    rw [this]
    exact ih (mapInsert tbl u a) t hnext

theorem prefix10_run :
    parseLoop [] initPState (chars ("10.0.0.1 ")) =
      some (⟨State.WhiteSpace, 16777226, 0, []⟩, []) := by decide

/-- Claim C5: a line of one address followed by several space-separated
hostname tokens inserts one entry per token, each mapped to the same
already-parsed address (stated for the address `10.0.0.1`, value
`0x0100000A`, and any non-empty token list). -/
theorem C5_multi_hostnames (ts : List (List Char)) (hne : ts ≠ [])
    (hall : ∀ t ∈ ts, t ≠ [] ∧ t.length ≤ 511 ∧ ∀ c ∈ t, isHostByte c ∧ c ≠ nulChar) :
    ParseHostsFile (chars ("10.0.0.1 ") ++ (joinTokens ts ++ ['\n'])) [] =
      some (insertAll [] ts 16777226) ∧
    ∀ t ∈ ts, GetRedirectedHostByName (insertAll [] ts 16777226) t = some 16777226 := by
  constructor
  · have hnul : noNul (chars ("10.0.0.1 ") ++ (joinTokens ts ++ ['\n'])) := by
      intro x hx
      have hpre : ∀ y ∈ chars ("10.0.0.1 "), y ≠ nulChar := by decide
      rcases List.mem_append.mp hx with hp | hr
      · exact hpre x hp
      · rcases List.mem_append.mp hr with hj | hn
        · rcases mem_joinTokens ts x hj with rfl | ⟨t, ht, hxt⟩
          · decide
          · exact ((hall t ht).2.2 x hxt).2
        · rcases List.mem_cons.mp hn with rfl | hf
          · decide
          · simp at hf
    unfold ParseHostsFile
    rw [takeWhile_noNul hnul, parseLoop_append, prefix10_run]
    simp only [Option.bind]
    rw [show (joinTokens ts ++ ['\n'] : List Char) = joinTokens ts ++ '\n' :: [] from rfl]
    obtain ⟨w', h', hrec⟩ := tokens_commit [] ts hne
      (fun t ht => ⟨(hall t ht).1, (hall t ht).2.1, fun c hc => ((hall t ht).2.2 c hc).1⟩)
      [] 16777226 0 []
    rw [hrec]
    simp [parseLoop, finishParse]
  · intro t ht
    exact lookup_insertAll ts 16777226 [] t (Or.inr ht)

/-- Claim C5 witness: parsing `"10.0.0.1 a.com b.com\n"` yields two entries
both mapped to the address value `0x0100000A`. -/
theorem C5_multi_hostnames_witness :
    (ParseHostsFile (chars ("10.0.0.1 ") ++ (joinTokens [['a', '.', 'c', 'o', 'm'], ['b', '.', 'c', 'o', 'm']] ++ ['\n'])) [] =
      some (insertAll [] [['a', '.', 'c', 'o', 'm'], ['b', '.', 'c', 'o', 'm']] 16777226)) ∧
    ∀ t ∈ [['a', '.', 'c', 'o', 'm'], ['b', '.', 'c', 'o', 'm']],
      GetRedirectedHostByName (insertAll [] [['a', '.', 'c', 'o', 'm'], ['b', '.', 'c', 'o', 'm']] 16777226) t =
        some 16777226 :=
  C5_multi_hostnames [['a', '.', 'c', 'o', 'm'], ['b', '.', 'c', 'o', 'm']]
    (by decide) (by decide)

/-- Claim C6: insertion into the redirection table is insert-or-overwrite, so
when the same hostname is committed more than once — within one parse call or
across successive parse calls into the same table — the table maps it to the
address of the latest occurrence (last write wins), leaving other keys
untouched. -/
theorem C6_last_write_wins :
    (∀ (t : Table) (k : List Char) (v : Nat),
      GetRedirectedHostByName (mapInsert t k v) k = some v)
  ∧ (∀ (t : Table) (k : List Char) (v : Nat) (q : List Char), q ≠ k →
      GetRedirectedHostByName (mapInsert t k v) q = GetRedirectedHostByName t q)
  ∧ ParseHostsFile (chars ("1.1.1.1 h\n2.2.2.2 h\n")) [] = some [(['h'], 33686018)]
  ∧ ParseHostsFile (chars ("2.2.2.2 h\n")) [(['h'], 16843009)] = some [(['h'], 33686018)] := by
  refine ⟨?_, ?_, ?_, ?_⟩
  · intro t k v
    rw [lookup_mapInsert, if_pos rfl]
  · intro t k v q hq
    rw [lookup_mapInsert, if_neg hq]
  · decide
  · decide

/-- Claim C6 witness: overwriting key `h` does not disturb the entry for the
other key `x`. -/
theorem C6_last_write_wins_witness :
    (['x'] : List Char) ≠ ['h'] ∧
    GetRedirectedHostByName (mapInsert [(['x'], 5)] ['h'] 7) ['x'] =
      GetRedirectedHostByName [(['x'], 5)] ['x'] :=
  ⟨by decide, C6_last_write_wins.2.1 [(['x'], 5)] ['h'] 7 ['x'] (by decide)⟩

/-- Claim C7: when the input ends while a hostname token is being read, the
token is still committed with the current line's address: for every input and
table, parsing the input equals parsing the input with a final newline
appended; in particular `"1.2.3.4 h"` (no trailing terminator) commits the
same entry as `"1.2.3.4 h\n"`. -/
theorem C7_eof_commit :
    (∀ (data : List Char) (tbl : Table),
      ParseHostsFile data tbl = ParseHostsFile (data ++ ['\n']) tbl)
  ∧ ParseHostsFile (chars ("1.2.3.4 h")) [] = some [(['h'], 67305985)] := by
  constructor
  · intro data tbl
    unfold ParseHostsFile
    by_cases hnul : noNul data
    · have hnul' : noNul (data ++ ['\n']) := by
        intro x hx
        rcases List.mem_append.mp hx with hd | hn
        · exact hnul x hd
        · rcases List.mem_cons.mp hn with rfl | hf
          · decide
          · simp at hf
      rw [takeWhile_noNul hnul, takeWhile_noNul hnul', parseLoop_append]
      cases hp : parseLoop tbl initPState data with
      | none => simp [finishParse]
      | some r =>
        obtain ⟨s, t⟩ := r
        simp only [Option.bind]
        exact (finish_step_newline s t).symm
    · have h' : ¬ ∀ c ∈ data, (fun x => !(x == nulChar)) c = true := by
        intro hall
        exact hnul (fun c hc => by simpa using hall c hc)
      rw [takeWhile_append_stop data ['\n'] h']
  · decide

/-- Claim C8: for every value of the file-existence oracle, `SelectHostsFile`
returns exactly one path: with emulated storage active it returns the first
existing of `/hosts/emummc_<4-hex-digit-id>`, `/hosts/emummc`,
`/hosts/default`; otherwise the first existing of `/hosts/sysmmc`,
`/hosts/default`; and `/hosts/default` whenever no earlier candidate exists
(the id `0x12` formats as the 4-hex-digit suffix `0012`). -/
theorem C8_select_hosts_file :
    (∀ (ex : String → Bool) (id : Nat), ex (specificEmummcPath id) = true →
      SelectHostsFile ex true id = specificEmummcPath id)
  ∧ (∀ (ex : String → Bool) (id : Nat), ex (specificEmummcPath id) = false →
      ex ("/hosts/emummc") = true → SelectHostsFile ex true id = "/hosts/emummc")
  ∧ (∀ (ex : String → Bool) (id : Nat), ex (specificEmummcPath id) = false →
      ex ("/hosts/emummc") = false → SelectHostsFile ex true id = "/hosts/default")
  ∧ (∀ (ex : String → Bool) (id : Nat), ex ("/hosts/sysmmc") = true →
      SelectHostsFile ex false id = "/hosts/sysmmc")
  ∧ (∀ (ex : String → Bool) (id : Nat), ex ("/hosts/sysmmc") = false →
      SelectHostsFile ex false id = "/hosts/default")
  ∧ specificEmummcPath 18 = "/hosts/emummc_0012" := by
  refine ⟨?_, ?_, ?_, ?_, ?_, ?_⟩
  · intro ex id h1
    simp [SelectHostsFile, h1]
  · intro ex id h1 h2
    simp [SelectHostsFile, h1, h2]
  · intro ex id h1 h2
    simp [SelectHostsFile, h1, h2]
  · intro ex id h1
    simp [SelectHostsFile, h1]
  · intro ex id h1
    simp [SelectHostsFile, h1]
  · decide

/-- Claim C8 witness: with an oracle under which every path exists, the
specific emummc path is selected for id `0x12`. -/
theorem C8_select_hosts_file_witness :
    ((fun _ => true) : String → Bool) (specificEmummcPath 18) = true ∧
    SelectHostsFile (fun _ => true) true 18 = specificEmummcPath 18 :=
  ⟨rfl, C8_select_hosts_file.1 (fun _ => true) 18 rfl⟩

/-- Claim C9: lookup on the empty (never-initialized) table returns not-found
for every hostname; in general lookup returns the stored address exactly when
some stored key is byte-for-byte equal to the queried hostname, and returns
not-found (output unset) otherwise. -/
theorem C9_lookup_semantics :
    (∀ h : List Char, GetRedirectedHostByName [] h = none)
  ∧ (∀ (tbl : Table) (h : List Char) (v : Nat),
      GetRedirectedHostByName tbl h = some v → (h, v) ∈ tbl)
  ∧ (∀ (tbl : Table) (h : List Char),
      GetRedirectedHostByName tbl h = none → ∀ v : Nat, (h, v) ∉ tbl)
  ∧ (∀ (tbl : Table) (h : List Char),
      (∃ v, (h, v) ∈ tbl) → ∃ v, GetRedirectedHostByName tbl h = some v) := by
  refine ⟨fun h => rfl, ?_, ?_, ?_⟩
  · intro tbl
    induction tbl with
    | nil =>
      intro h v hv
      simp [GetRedirectedHostByName] at hv
    | cons p rest ih =>
      obtain ⟨k, a⟩ := p
      intro h v hv
      by_cases hk : k = h
      · subst hk
        simp [GetRedirectedHostByName] at hv
        simp [hv]
      · simp [GetRedirectedHostByName, hk] at hv
        exact List.mem_cons_of_mem _ (ih h v hv)
  · intro tbl
    induction tbl with
    | nil =>
      intro h _ v
      simp
    | cons p rest ih =>
      obtain ⟨k, a⟩ := p
      intro h hnone v
      by_cases hk : k = h
      · subst hk
        simp [GetRedirectedHostByName] at hnone
      · simp [GetRedirectedHostByName, hk] at hnone
        intro hmem
        rcases List.mem_cons.mp hmem with heq | hrest
        · have : h = k := by
            have := congrArg Prod.fst heq
            simpa using this
          exact hk this.symm
        · exact (ih h hnone v) hrest
  · intro tbl
    induction tbl with
    | nil =>
      intro h hex
      obtain ⟨v, hv⟩ := hex
      simp at hv
    | cons p rest ih =>
      obtain ⟨k, a⟩ := p
      intro h hex
      obtain ⟨v, hv⟩ := hex
      by_cases hk : k = h
      · subst hk
        exact ⟨a, by simp [GetRedirectedHostByName]⟩
      · rcases List.mem_cons.mp hv with heq | hrest
        · exfalso
          have : h = k := by
            have := congrArg Prod.fst heq
            simpa using this
          exact hk this.symm
        · obtain ⟨v', hv'⟩ := ih h ⟨v, hrest⟩
          exact ⟨v', by simp [GetRedirectedHostByName, hk, hv']⟩

/-- Claim C9 witness: lookup of the stored key `h` finds its entry. -/
theorem C9_lookup_semantics_witness :
    GetRedirectedHostByName [((['h'] : List Char), 5)] ['h'] = some 5 ∧
    ((['h'] : List Char), 5) ∈ [((['h'] : List Char), 5)] :=
  ⟨by decide, C9_lookup_semantics.2.1 [(['h'], 5)] ['h'] 5 (by decide)⟩
